import Mathlib

/-!
Verification of the `lookup_ldap` Ansible plugin
(`lookup_plugins/ldap.py` and `filter_plugins/hostname_dn.py`).

The Python code manipulates dictionaries whose insertion order is
observable (iteration order, list comprehensions over keys).  We model a
Python dict as an association list `List (String × α)` in insertion
order, with key update replacing in place (Python dicts keep the
original position of an overwritten key) and new keys appended at the
end, exactly as CPython does.
-/

set_option autoImplicit false

namespace LdapLookup

section AssocDict

variable {α : Type}

/-- `d.get(k)` / `d[k]`: first binding of `k`, if any. -/
def lookupKey : List (String × α) → String → Option α
  | [], _ => none
  | (k', v) :: rest, k => if k' = k then some v else lookupKey rest k

/-- `d[k] = v`: replace the binding of `k` in place, else append it. -/
def setKey : List (String × α) → String → α → List (String × α)
  | [], k, v => [(k, v)]
  | (k', v') :: rest, k, v =>
      if k' = k then (k, v) :: rest else (k', v') :: setKey rest k v

/-- `d.pop(k)`: the dictionary without the binding of `k`. -/
def popKey : List (String × α) → String → List (String × α)
  | [], _ => []
  | (k', v) :: rest, k => if k' = k then rest else (k', v) :: popKey rest k

/-- `d.update(e)`: apply every binding of `e` to `d`, in order. -/
def updateDict (d e : List (String × α)) : List (String × α) :=
  e.foldl (fun acc kv => setKey acc kv.1 kv.2) d

/-- The keys of a dictionary, in order. -/
def keysOf (d : List (String × α)) : List String :=
  d.map Prod.fst

end AssocDict

/-!
## Context resolution (`fill_context`)

Configuration values are either strings or nested configuration
dictionaries (the nesting is needed because `fill_context` stores
snapshots of the accumulator under the `context` key).  Failure modes
are named after the error taxonomy of the design: `configurationError`
models a raised `AnsibleError`, `missingAttribute` the key lookup
failure on a result entry, `indexError` the out-of-bounds first-value
access, `usageError` the "context parameters must come before search
terms" rejection, and `typeError` the remaining raw dynamic-typing
failures of the Python code.
-/

inductive Val where
  | str : String → Val
  | cfg : List (String × Val) → Val

/-- A Python dict holding configuration data, in insertion order. -/
abbrev Config := List (String × Val)

inductive Err where
  | configurationError : String → Err
  | missingAttribute : String → Err
  | indexError : String → Err
  | usageError : String → Err
  | typeError : String → Err
deriving DecidableEq

/-- `default_context = 'ldap_lookup_config'`. -/
def default_context : String := "ldap_lookup_config"

/--
One iteration of the layer loop of `fill_context` (the body of
`for d in [ctx, kwargs]`): if the layer has a `context` key, pop it,
look the named context up in the Ansible variables (`inject`), merge it
into the accumulator, snapshot the accumulator into its own `context`
key, and finally merge the layer's remaining keys.
-/
def applyLayer (inject : Config) (fctx : Config) (d : Config) : Except Err Config :=
  match lookupKey d "context" with
  | none => .ok (updateDict fctx d)
  | some pc =>
      let rest := popKey d "context"
      match pc with
      | .cfg _ => .error (.typeError "unhashable type")
      | .str name =>
          match lookupKey inject name with
          | none => .error (.configurationError ("context " ++ name ++ " does not exist"))
          | some (.str _) => .error (.typeError "dictionary update sequence expected")
          | some (.cfg named_ctx) =>
              let f1 := updateDict fctx named_ctx
              let f2 := setKey f1 "context" (.cfg f1)
              .ok (updateDict f2 rest)

/--
`fill_context(ctx, inject, **kwargs)` of `lookup_plugins/ldap.py`:
start from a copy of `inject[default_context]` (empty if absent), set
its `context` key to a snapshot of itself, then apply the two override
layers `ctx` and `kwargs` in order.
-/
def fill_context (ctx kwargs inject : Config) : Except Err Config := do
  let base ← (match lookupKey inject default_context with
              | some (.cfg c) => .ok c
              | some (.str _) => .error (Err.typeError "default context is not a dict")
              | none => .ok ([] : Config))
  let f0 := setKey base "context" (.cfg base)
  let f1 ← applyLayer inject f0 ctx
  applyLayer inject f1 kwargs

/-!
## Result projection (`LookupModule.run`, result-processing loop)

Attribute properties (`attr_props` values) are Python dicts produced by
`parse_kv` (string values) or supplied structurally (possibly boolean
values); an attribute requested with no properties is stored as `None`.
Raw LDAP attribute values are byte strings, modelled as `String`.  The
two external value codecs (`base64.b64encode` and `str.decode`) are
passed in as function parameters `b64` and `strDec`; a non-string,
non-absent `encoding` property would crash the Python code and is not
exercised by any claim.
-/

inductive PVal where
  | str : String → PVal
  | bool : Bool → PVal
deriving DecidableEq

/-- A parsed per-attribute property dict. -/
abbrev Props := List (String × PVal)

/-- `attr_props`: attribute name to property dict or `None`. -/
abbrev AProps := List (String × Option Props)

/-- Python truthiness of `d.get(k, False)`. -/
def truthyO : Option PVal → Bool
  | none => false
  | some (.str s) => s != ""
  | some (.bool b) => b

/-- `attr_props.get(a) or {}`. -/
def propsFor (ap : AProps) (a : String) : Props :=
  ((lookupKey ap a).join).getD []

/-- `encode(p, v)` of `lookup_plugins/ldap.py`. -/
def encode (b64 : String → String) (strDec : String → String → String)
    (p : Props) (v : String) : String :=
  match lookupKey p "encoding" with
  | some (.str "binary") => b64 v
  | some (.str e) => strDec e v
  | _ => v

/-- A value in an output record: a scalar, Python `None`, or a list. -/
inductive OutVal where
  | nil : OutVal
  | str : String → OutVal
  | list : List String → OutVal
deriving DecidableEq

/-- One element of the returned result sequence. -/
inductive OutRecord where
  | scalar : String → OutRecord
  | record : List (String × OutVal) → OutRecord
deriving DecidableEq

/-- The search term as stored in an output record (`None` or a string). -/
def termOVal : Option String → OutVal
  | none => .nil
  | some s => .str s

/--
The `item[a] = ...` step of the full-record branch: given the decoded
value list `vlist`, join it if a `join` separator is present, keep it as
a list if it has more than one element or `always_list` is truthy, and
otherwise take `vlist[0]` (an out-of-bounds access when `vlist` is
empty, modelled as `indexError`).
-/
def fieldValue (p : Props) (a : String) (vlist : List String) : Except Err OutVal :=
  match lookupKey p "join" with
  | some (.str sep) => .ok (.str (String.intercalate sep vlist))
  | some (.bool _) => .error (.typeError "join is not a string")
  | none =>
      if vlist.length > 1 || truthyO (lookupKey p "always_list") then .ok (.list vlist)
      else
        match vlist with
        | v :: _ => .ok (.str v)
        | [] => .error (.indexError a)

/-- The `for a in attrs` loop of the full-record branch, threading `item`. -/
def projectAttrs (b64 : String → String) (strDec : String → String → String)
    (attr_props : AProps) :
    List (String × List String) → List (String × OutVal) →
      Except Err (List (String × OutVal))
  | [], item => .ok item
  | (a, vs) :: rest, item =>
      let p := propsFor attr_props a
      if truthyO (lookupKey p "skip") then
        projectAttrs b64 strDec attr_props rest item
      else do
        let fv ← fieldValue p a (vs.map (encode b64 strDec p))
        projectAttrs b64 strDec attr_props rest (setKey item a fv)

/--
The per-entry result processing of `LookupModule.run` (`for dn, attrs
in lr`): single-attribute mode (keyed or bare) when `single_attr` is
set, full-record mode otherwise.
-/
def processEntry (b64 : String → String) (strDec : String → String → String)
    (attr_props : AProps) (single_attr key_attr : Option String)
    (term : Option String) (dn : String) (attrs : List (String × List String)) :
    Except Err (List OutRecord) :=
  match single_attr with
  | some sa =>
      let items := if sa = "dn" then [dn] else (lookupKey attrs sa).getD []
      let p := propsFor attr_props sa
      match key_attr with
      | some ka => do
          let key ←
            (if ka = "term" then .ok (termOVal term)
             else if ka = "dn" then .ok (.str dn)
             else
               match lookupKey attrs ka with
               | some (v :: _) => .ok (OutVal.str v)
               | some [] => .error (.indexError ka)
               | none => .error (.missingAttribute ka))
          .ok (items.map (fun it =>
            OutRecord.record (setKey (setKey [] ka key) sa (.str (encode b64 strDec p it)))))
      | none => .ok (items.map (fun it => OutRecord.scalar (encode b64 strDec p it)))
  | none => do
      let fields ← projectAttrs b64 strDec attr_props attrs
        [("term", termOVal term), ("dn", OutVal.str dn)]
      .ok [OutRecord.record fields]

/--
Refinement comparison definition, following the specification's words
for a full-record field: decode each raw value via the codec; if a
`join` separator is specified, concatenate the decoded values with it;
else if more than one decoded value remains or `always_list` is set,
keep the ordered sequence; else collapse to the single decoded value.
-/
def specFieldValue (b64 : String → String) (strDec : String → String → String)
    (p : Props) (vs : List String) : OutVal :=
  let decoded := vs.map (encode b64 strDec p)
  match lookupKey p "join" with
  | some (.str sep) => .str (String.intercalate sep decoded)
  | _ =>
      if decoded.length > 1 || truthyO (lookupKey p "always_list") then .list decoded
      else .str (decoded.headD "")

/-- The record carried by a successful one-record projection result. -/
def recOf : Except Err (List OutRecord) → List (String × OutVal)
  | .ok [OutRecord.record fields] => fields
  | _ => []

/-!
## Attribute-spec parsing (`LookupModule.run`, lines 131-162)

The `value` field of the resolved configuration is absent, a bare
element, or a list of elements; an element is a bare attribute name or
a dict from attribute name to properties, where properties are either a
structured dict or a flat `"k1=v1 k2=v2"` string handed to the external
`parse_kv` micro-parser (passed in as the `pkv` parameter).
-/

inductive PropIn where
  | flat : String → PropIn
  | dict : List (String × PVal) → PropIn
deriving DecidableEq

inductive VElem where
  | plain : String → VElem
  | attrMap : List (String × PropIn) → VElem
deriving DecidableEq

inductive ValueSpec where
  | absent : ValueSpec
  | single : VElem → ValueSpec
  | list : List VElem → ValueSpec
deriving DecidableEq

/-- `attr_prop_dict` after the `parse_kv` normalization step. -/
def propsOfIn (pkv : String → List (String × PVal)) : PropIn → Props
  | .flat s => pkv s
  | .dict d => d

/-- The `for attr in value_spec` loop filling `attr_props`. -/
def buildAttrProps (pkv : String → List (String × PVal)) :
    List VElem → AProps → AProps
  | [], acc => acc
  | .plain a :: rest, acc => buildAttrProps pkv rest (setKey acc a none)
  | .attrMap m :: rest, acc =>
      buildAttrProps pkv rest
        (m.foldl (fun ac nm => setKey ac nm.1 (some (propsOfIn pkv nm.2))) acc)

/--
`base_args['attrlist']`: the attribute names whose properties are
`None` or do not mark a truthy `skip`, in `attr_props` order.
-/
def attrlistOf (ap : AProps) : List String :=
  (ap.filter (fun x =>
    match x.2 with
    | none => true
    | some pd => ! truthyO (lookupKey pd "skip"))).map Prod.fst

/-- `single_attr`: set exactly when the attrlist has length one. -/
def singleAttrOf : List String → Option String
  | [a] => some a
  | _ => none

/-- `attr_props`, `base_args['attrlist']` and `single_attr` for a present `value`. -/
def computeFromList (pkv : String → List (String × PVal)) (es : List VElem) :
    AProps × Option (List String) × Option String :=
  let ap := buildAttrProps pkv es []
  let al := attrlistOf ap
  (ap, some al, singleAttrOf al)

/--
The attribute-spec block of `LookupModule.run`: a bare (non-list)
`value` is wrapped into a one-element list; an absent `value` leaves
`attr_props` empty and `attrlist` unset.
-/
def computeAttrSpecs (pkv : String → List (String × PVal)) :
    ValueSpec → AProps × Option (List String) × Option String
  | .absent => ([], none, none)
  | .single e => computeFromList pkv [e]
  | .list es => computeFromList pkv es

/--
The `key` handling step: if `key` is set, differs from `dn`,
an attrlist was derived, and `key` is not in it, append it.
-/
def applyKeyAttr (key_attr : Option String) :
    Option (List String) → Option (List String)
  | none => none
  | some al =>
      match key_attr with
      | none => some al
      | some k => if k ≠ "dn" ∧ k ∉ al then some (al ++ [k]) else some al

/-!
## Scope resolution and the per-term search loop
-/

/--
Modelled from the spec: the `SCOPE_*` constants of the external
python-ldap module (the directory-protocol client library is outside
this repository); per the specification the scope vocabulary is
`base|one|subtree`, so exactly `SCOPE_BASE`, `SCOPE_ONE` and
`SCOPE_SUBTREE` resolve, every other `getattr` fails.
-/
def ldapScopeGetattr (name : String) : Option Nat :=
  if name = "SCOPE_BASE" then some 0
  else if name = "SCOPE_ONE" then some 1
  else if name = "SCOPE_SUBTREE" then some 2
  else none

/--
Python's `str.upper()` on the scope name (scope names are ASCII;
`Char.toUpper` uppercases exactly the ASCII range).
-/
def strUpper (s : String) : String :=
  String.mk (s.data.map Char.toUpper)

/--
`getattr(ldap, 'SCOPE_%s' % search_desc['scope'].upper())`: resolve the
scope name case-insensitively; an unknown scope fails (the spec's
ConfigurationError for an unrecognized scope value).
-/
def resolveScope (s : String) : Except Err Nat :=
  match ldapScopeGetattr ("SCOPE_" ++ strUpper s) with
  | some c => .ok c
  | none => .error (.configurationError ("unrecognized scope " ++ s))

/-- The template-bound per-term search description (base, scope, filter). -/
structure SearchDesc where
  base : String
  scope : String
  filter : Option String
deriving DecidableEq

/-- One element of the `terms` argument: an override dict or a plain term. -/
inductive TermItem where
  | mapping : Config → TermItem
  | plain : Option String → TermItem

/--
The `while` loop consuming leading dict terms into the override
context (`ctx.update(terms.pop(0))`).
-/
def stripLeadingMappings : List TermItem → Config → Config × List TermItem
  | .mapping d :: rest, acc => stripLeadingMappings rest (updateDict acc d)
  | ts, acc => (acc, ts)

/--
The `for term in terms` loop of `LookupModule.run`: a dict term fails
(context parameters must come before search terms); a plain term is
bound into the search description by the external template evaluator
(`bindTerm`, closing over the per-item context and run-level
variables), its scope resolved, the search issued (`searchFn`, the
external `search_s` with the run-level attrlist already applied), and
every returned entry projected.  Returns the issued
(base, scope, filter) calls and the accumulated output records.
-/
def runTermsLoop (bindTerm : Option String → SearchDesc)
    (searchFn : String → Nat → Option String →
      List (String × List (String × List String)))
    (b64 : String → String) (strDec : String → String → String) (ap : AProps)
    (single_attr key_attr : Option String) :
    List TermItem → Except Err (List (String × Nat × Option String) × List OutRecord)
  | [] => .ok ([], [])
  | .mapping _ :: _ =>
      .error (.usageError "context parameters must come before search terms")
  | .plain t :: rest => do
      let desc := bindTerm t
      let sc ← resolveScope desc.scope
      let entries := searchFn desc.base sc desc.filter
      let recs ← entries.foldlM (fun acc e => do
          let rs ← processEntry b64 strDec ap single_attr key_attr t e.1 e.2
          pure (acc ++ rs)) ([] : List OutRecord)
      let tailRes ← runTermsLoop bindTerm searchFn b64 strDec ap single_attr key_attr rest
      .ok ((desc.base, sc, desc.filter) :: tailRes.1, recs ++ tailRes.2)

/--
The term-processing phase of `LookupModule.run` after leading override
dicts have been consumed: an empty term list is replaced by the single
implicit `None` term (`if terms == []: terms = [None]`).
-/
def runSearch (bindTerm : Option String → SearchDesc)
    (searchFn : String → Nat → Option String →
      List (String × List (String × List String)))
    (b64 : String → String) (strDec : String → String → String) (ap : AProps)
    (single_attr key_attr : Option String) (terms : List TermItem) :
    Except Err (List (String × Nat × Option String) × List OutRecord) :=
  runTermsLoop bindTerm searchFn b64 strDec ap single_attr key_attr
    (if terms.isEmpty then [TermItem.plain none] else terms)

section AssocDictLemmas

variable {α : Type}

@[simp] theorem lookupKey_nil (k : String) : lookupKey ([] : List (String × α)) k = none := rfl

theorem lookupKey_cons (k' : String) (v : α) (rest : List (String × α)) (k : String) :
    lookupKey ((k', v) :: rest) k = if k' = k then some v else lookupKey rest k := rfl

@[simp] theorem setKey_nil (k : String) (v : α) : setKey ([] : List (String × α)) k v = [(k, v)] := rfl

theorem lookupKey_setKey_self (d : List (String × α)) (k : String) (v : α) :
    lookupKey (setKey d k v) k = some v := by
  induction d with
  | nil => simp [setKey, lookupKey]
  | cons hd tl ih =>
      obtain ⟨k', v'⟩ := hd
      by_cases h : k' = k
      · simp [setKey, h, lookupKey]
      · simp [setKey, h, lookupKey, ih]

theorem lookupKey_setKey_ne (d : List (String × α)) (k k' : String) (v : α)
    (h : k ≠ k') : lookupKey (setKey d k v) k' = lookupKey d k' := by
  induction d with
  | nil => simp [setKey, lookupKey, h]
  | cons hd tl ih =>
      obtain ⟨k0, v0⟩ := hd
      by_cases h0 : k0 = k
      · subst h0
        simp [setKey, lookupKey, h]
      · simp [setKey, h0, lookupKey, ih]

theorem keysOf_setKey (d : List (String × α)) (k : String) (v : α) :
    keysOf (setKey d k v) = if k ∈ keysOf d then keysOf d else keysOf d ++ [k] := by
  induction d with
  | nil => simp [setKey, keysOf]
  | cons hd tl ih =>
      obtain ⟨k0, v0⟩ := hd
      by_cases h0 : k0 = k
      · subst h0
        simp [setKey, keysOf]
      · simp only [setKey, if_neg h0, keysOf, List.map_cons] at ih ⊢
        rw [ih]
        by_cases hm : k ∈ keysOf tl
        · simp [keysOf] at hm
          simp [hm, Ne.symm h0]
        · simp [keysOf] at hm
          simp [hm, Ne.symm h0]

theorem nodup_keys_setKey (d : List (String × α)) (k : String) (v : α)
    (h : (keysOf d).Nodup) : (keysOf (setKey d k v)).Nodup := by
  rw [keysOf_setKey]
  by_cases hm : k ∈ keysOf d
  · simpa [hm] using h
  · simp only [if_neg hm]
    simpa [List.nodup_append] using ⟨h, fun hk => hm hk⟩

theorem lookupKey_updateDict_not_mem (d e : List (String × α)) (k : String)
    (h : k ∉ keysOf e) : lookupKey (updateDict d e) k = lookupKey d k := by
  induction e generalizing d with
  | nil => rfl
  | cons hd tl ih =>
      obtain ⟨k0, v0⟩ := hd
      simp only [keysOf, List.map_cons, List.mem_cons] at h
      push_neg at h
      simp only [updateDict, List.foldl_cons]
      rw [show (tl.foldl (fun acc kv => setKey acc kv.1 kv.2) (setKey d k0 v0)) =
            updateDict (setKey d k0 v0) tl from rfl]
      rw [ih (setKey d k0 v0) (by simpa [keysOf] using h.2)]
      exact lookupKey_setKey_ne _ _ _ _ (Ne.symm h.1)

theorem lookupKey_updateDict_mem (d e : List (String × α)) (k : String) (v : α)
    (hnd : (keysOf e).Nodup) (h : lookupKey e k = some v) :
    lookupKey (updateDict d e) k = some v := by
  induction e generalizing d with
  | nil => simp [lookupKey] at h
  | cons hd tl ih =>
      obtain ⟨k0, v0⟩ := hd
      simp only [keysOf, List.map_cons, List.nodup_cons] at hnd
      simp only [lookupKey_cons] at h
      simp only [updateDict, List.foldl_cons]
      rw [show (tl.foldl (fun acc kv => setKey acc kv.1 kv.2) (setKey d k0 v0)) =
            updateDict (setKey d k0 v0) tl from rfl]
      by_cases h0 : k0 = k
      · subst h0
        simp only [if_pos rfl] at h
        rw [lookupKey_updateDict_not_mem _ _ _ (by simpa [keysOf] using hnd.1)]
        rw [lookupKey_setKey_self]
        exact h
      · simp only [if_neg h0] at h
        exact ih (setKey d k0 v0) hnd.2 h

theorem popKey_cons (k' : String) (v : α) (rest : List (String × α)) (k : String) :
    popKey ((k', v) :: rest) k = if k' = k then rest else (k', v) :: popKey rest k := rfl

theorem not_mem_keysOf_popKey_self (d : List (String × α)) (k : String)
    (hnd : (keysOf d).Nodup) : k ∉ keysOf (popKey d k) := by
  induction d with
  | nil => simp [popKey, keysOf]
  | cons hd tl ih =>
      obtain ⟨k0, v0⟩ := hd
      simp only [keysOf, List.map_cons, List.nodup_cons] at hnd
      by_cases h0 : k0 = k
      · subst h0
        rw [popKey_cons, if_pos rfl]
        exact hnd.1
      · rw [popKey_cons, if_neg h0]
        simp only [keysOf, List.map_cons, List.mem_cons]
        push_neg
        exact ⟨Ne.symm h0, ih hnd.2⟩

theorem not_mem_keysOf_iff_lookupKey (d : List (String × α)) (k : String) :
    k ∉ keysOf d ↔ lookupKey d k = none := by
  induction d with
  | nil => simp [keysOf]
  | cons hd tl ih =>
      obtain ⟨k0, v0⟩ := hd
      by_cases h0 : k0 = k
      · subst h0
        simp [keysOf, lookupKey]
      · simp [keysOf, lookupKey, h0, Ne.symm h0] at ih ⊢
        exact ih

theorem lookupKey_popKey_self (d : List (String × α)) (k : String)
    (hnd : (keysOf d).Nodup) : lookupKey (popKey d k) k = none :=
  (not_mem_keysOf_iff_lookupKey _ _).mp (not_mem_keysOf_popKey_self d k hnd)

theorem lookupKey_popKey_ne (d : List (String × α)) (k0 k : String)
    (h : k ≠ k0) : lookupKey (popKey d k0) k = lookupKey d k := by
  induction d with
  | nil => rfl
  | cons hd tl ih =>
      obtain ⟨k', v'⟩ := hd
      by_cases h0 : k' = k0
      · subst h0
        rw [popKey_cons, if_pos rfl, lookupKey_cons, if_neg (fun he => h (Eq.symm he))]
      · rw [popKey_cons, if_neg h0, lookupKey_cons, lookupKey_cons, ih]

theorem popKey_sublist (d : List (String × α)) (k : String) :
    (popKey d k).Sublist d := by
  induction d with
  | nil => simp [popKey]
  | cons hd tl ih =>
      obtain ⟨k', v'⟩ := hd
      by_cases h0 : k' = k
      · rw [popKey_cons, if_pos h0]
        exact List.sublist_cons_self _ _
      · rw [popKey_cons, if_neg h0]
        exact List.Sublist.cons₂ _ ih

theorem nodup_keys_popKey (d : List (String × α)) (k : String)
    (hnd : (keysOf d).Nodup) : (keysOf (popKey d k)).Nodup :=
  hnd.sublist (List.Sublist.map Prod.fst (popKey_sublist d k))

end AssocDictLemmas

theorem exceptBind_ok {ε α β : Type} (a : α) (f : α → Except ε β) :
    (Except.ok a : Except ε α) >>= f = f a := rfl

theorem exceptBind_error {ε α β : Type} (e : ε) (f : α → Except ε β) :
    (Except.error e : Except ε α) >>= f = Except.error e := rfl

/-!
## Claim C1 and C7: `fill_context`
-/

/--
C1: Context resolution starts from a copy of the default configuration
whose `context` field is set to a snapshot of itself, then processes
the override layers in order (the term-prefix dict layer `ctx`, then
the call-site keyword overrides `kwargs`); for every layer that
contains a `context` key, that key is popped, the named context is
looked up and its keys merged into the accumulator, the accumulator's
`context` field is set to a snapshot of the accumulator at that point
(before the layer's remaining keys are applied), and then the layer's
remaining keys are merged; on any key collision the later layer wins,
except the `context` key itself, which always ends up holding a lineage
snapshot rather than a layer-supplied value.
-/
theorem fill_context_resolution_spec :
    (∀ (ctx kwargs inject c : Config),
        lookupKey inject default_context = some (.cfg c) →
        fill_context ctx kwargs inject =
          Except.bind (applyLayer inject (setKey c "context" (.cfg c)) ctx)
            (fun f1 => applyLayer inject f1 kwargs)) ∧
    (∀ (inject fctx d : Config),
        lookupKey d "context" = none →
        applyLayer inject fctx d = .ok (updateDict fctx d)) ∧
    (∀ (inject fctx d f' : Config) (k : String) (v : Val),
        applyLayer inject fctx d = .ok f' →
        (keysOf d).Nodup → k ≠ "context" → lookupKey d k = some v →
        lookupKey f' k = some v) ∧
    (∀ (inject fctx d f' : Config) (n : String),
        applyLayer inject fctx d = .ok f' →
        (keysOf d).Nodup →
        lookupKey d "context" = some (.str n) →
        ∃ named_ctx, lookupKey inject n = some (.cfg named_ctx) ∧
          lookupKey f' "context" = some (.cfg (updateDict fctx named_ctx))) := by
  refine ⟨?_, ?_, ?_, ?_⟩
  · intro ctx kwargs inject c h
    simp only [fill_context, h]
    rfl
  · intro inject fctx d h
    simp only [applyLayer, h]
  · intro inject fctx d f' k v happ hnd hk hv
    match hc : lookupKey d "context" with
    | none =>
        simp only [applyLayer, hc, Except.ok.injEq] at happ
        subst happ
        exact lookupKey_updateDict_mem fctx d k v hnd hv
    | some (Val.cfg _) =>
        simp [applyLayer, hc] at happ
    | some (Val.str n) =>
        match hn : lookupKey inject n with
        | none => simp [applyLayer, hc, hn] at happ
        | some (Val.str _) => simp [applyLayer, hc, hn] at happ
        | some (Val.cfg named_ctx) =>
            simp only [applyLayer, hc, hn, Except.ok.injEq] at happ
            subst happ
            have hrest : lookupKey (popKey d "context") k = some v := by
              rw [lookupKey_popKey_ne d "context" k hk]
              exact hv
            exact lookupKey_updateDict_mem _ _ k v
              (nodup_keys_popKey d "context" hnd) hrest
  · intro inject fctx d f' n happ hnd hc
    match hn : lookupKey inject n with
    | none => simp [applyLayer, hc, hn] at happ
    | some (Val.str _) => simp [applyLayer, hc, hn] at happ
    | some (Val.cfg named_ctx) =>
        refine ⟨named_ctx, rfl, ?_⟩
        simp only [applyLayer, hc, hn, Except.ok.injEq] at happ
        subst happ
        rw [lookupKey_updateDict_not_mem _ _ _
              (not_mem_keysOf_popKey_self d "context" hnd)]
        exact lookupKey_setKey_self _ _ _

/-- Witness for C1 at concrete inputs. -/
theorem fill_context_resolution_spec_witness :
    lookupKey
      [("url", Val.str "u"),
       ("context", Val.cfg [("url", Val.str "u"), ("context", Val.cfg [("url", Val.str "u")]),
                            ("base", Val.str "b")]),
       ("base", Val.str "b"), ("scope", Val.str "one")] "scope" = some (Val.str "one") ∧
    applyLayer [("ldap_lookup_config", Val.cfg [("url", Val.str "u")])]
      [("url", Val.str "u")] [("base", Val.str "x")] =
      .ok (updateDict [("url", Val.str "u")] [("base", Val.str "x")]) := by
  constructor
  · exact fill_context_resolution_spec.2.2.1
      [("ldap_lookup_config", Val.cfg [("url", Val.str "u")]),
       ("alt", Val.cfg [("base", Val.str "b")])]
      [("url", Val.str "u"), ("context", Val.cfg [("url", Val.str "u")])]
      [("context", Val.str "alt"), ("scope", Val.str "one")]
      _ "scope" (Val.str "one") rfl (by decide) (by decide) rfl
  · exact fill_context_resolution_spec.2.1
      [("ldap_lookup_config", Val.cfg [("url", Val.str "u")])]
      [("url", Val.str "u")] [("base", Val.str "x")] rfl

/--
C7: For every override layer whose `context` key names a context absent
from the named-context store (the Ansible variables `inject`), context
resolution fails with a `ConfigurationError` carrying the message
"context <name> does not exist", and no configuration is returned.  The
layer in question is either the term-prefix `ctx` layer, or the
`kwargs` layer after the `ctx` layer resolved successfully.
-/
theorem fill_context_missing_context_error
    (ctx kwargs inject : Config) (n : String)
    (hbase : lookupKey inject default_context = none ∨
      ∃ c, lookupKey inject default_context = some (.cfg c))
    (hlayer :
      (lookupKey ctx "context" = some (.str n) ∧ lookupKey inject n = none) ∨
      ((lookupKey ctx "context" = none ∨
         ∃ m named_ctx, lookupKey ctx "context" = some (.str m) ∧
           lookupKey inject m = some (.cfg named_ctx)) ∧
       lookupKey kwargs "context" = some (.str n) ∧ lookupKey inject n = none)) :
    fill_context ctx kwargs inject =
      .error (.configurationError ("context " ++ n ++ " does not exist")) := by
  have hbase' : ∃ b, (match lookupKey inject default_context with
      | some (.cfg c) => Except.ok c
      | some (.str _) => Except.error (Err.typeError "default context is not a dict")
      | none => Except.ok ([] : Config)) = (Except.ok b : Except Err Config) := by
    rcases hbase with h | ⟨c, h⟩
    · exact ⟨[], by rw [h]⟩
    · exact ⟨c, by rw [h]⟩
  obtain ⟨b, hb⟩ := hbase'
  rcases hlayer with ⟨hc, hn⟩ | ⟨hctx, hkc, hn⟩
  · simp only [fill_context, hb, exceptBind_ok, applyLayer, hc, hn, exceptBind_error]
  · cases happ : applyLayer inject (setKey b "context" (Val.cfg b)) ctx with
    | error e =>
        exfalso
        rcases hctx with h | ⟨m, named_ctx, hm, hmn⟩
        · simp [applyLayer, h] at happ
        · simp [applyLayer, hm, hmn] at happ
    | ok f1 =>
        simp only [fill_context, hb, exceptBind_ok, happ]
        simp only [applyLayer, hkc, hn]

/-- Witness for C7 at concrete inputs. -/
theorem fill_context_missing_context_error_witness :
    fill_context [("context", Val.str "nope")] [] [("other", Val.cfg [])] =
      .error (.configurationError "context nope does not exist") := by
  exact fill_context_missing_context_error
    [("context", Val.str "nope")] [] [("other", Val.cfg [])] "nope"
    (Or.inl rfl) (Or.inl ⟨rfl, rfl⟩)

/-!
## Claims C2, C3, C4, C10: result projection
-/

theorem fieldValue_eq_spec (b64 : String → String) (strDec : String → String → String)
    (p : Props) (a : String) (vs : List String) (hne : vs ≠ [])
    (hwf : ∀ pv, lookupKey p "join" = some pv → ∃ s, pv = PVal.str s) :
    fieldValue p a (vs.map (encode b64 strDec p)) =
      .ok (specFieldValue b64 strDec p vs) := by
  match hj : lookupKey p "join" with
  | some (PVal.str sep) => simp [fieldValue, specFieldValue, hj]
  | some (PVal.bool b) =>
      obtain ⟨s, hs⟩ := hwf _ hj
      cases hs
  | none =>
      match vs, hne with
      | v :: tl, _ =>
          simp only [fieldValue, specFieldValue, hj]
          cases hc : (((v :: tl).map (encode b64 strDec p)).length > 1 ||
              truthyO (lookupKey p "always_list")) with
          | true => simp
          | false => simp

theorem projectAttrs_char (b64 : String → String) (strDec : String → String → String)
    (ap : AProps) :
    ∀ (attrs : List (String × List String)) (item : List (String × OutVal)),
      (keysOf attrs).Nodup →
      (∀ a vs, (a, vs) ∈ attrs →
        truthyO (lookupKey (propsFor ap a) "skip") = false →
        vs ≠ [] ∧ ∀ pv, lookupKey (propsFor ap a) "join" = some pv →
          ∃ s, pv = PVal.str s) →
      ∃ res, projectAttrs b64 strDec ap attrs item = .ok res ∧
        (∀ k, k ∉ keysOf attrs → lookupKey res k = lookupKey item k) ∧
        (∀ a vs, (a, vs) ∈ attrs →
          (truthyO (lookupKey (propsFor ap a) "skip") = false →
            lookupKey res a = some (specFieldValue b64 strDec (propsFor ap a) vs)) ∧
          (truthyO (lookupKey (propsFor ap a) "skip") = true →
            lookupKey res a = lookupKey item a)) := by
  intro attrs
  induction attrs with
  | nil =>
      intro item _ _
      exact ⟨item, rfl, fun _ _ => rfl, fun a vs h => nomatch h⟩
  | cons hd rest ih =>
      obtain ⟨a, vs⟩ := hd
      intro item hnd hok
      have hnd' : a ∉ keysOf rest ∧ (keysOf rest).Nodup := by
        simpa [keysOf, List.nodup_cons] using hnd
      cases hsk : truthyO (lookupKey (propsFor ap a) "skip") with
      | true =>
          obtain ⟨res, heq, hout, hmem⟩ := ih item hnd'.2
            (fun a' vs' h' => hok a' vs' (List.mem_cons_of_mem _ h'))
          refine ⟨res, ?_, ?_, ?_⟩
          · simp only [projectAttrs, hsk, if_pos]
            exact heq
          · intro k hk
            simp only [keysOf, List.map_cons, List.mem_cons] at hk
            push_neg at hk
            exact hout k (by simpa [keysOf] using hk.2)
          · intro a' vs' h'
            rcases List.mem_cons.mp h' with h' | h'
            · injection h' with ha hvs
              subst ha
              constructor
              · intro hf
                rw [hsk] at hf
                cases hf
              · intro _
                exact hout a' hnd'.1
            · exact hmem a' vs' h'
      | false =>
          obtain ⟨hne, hwf⟩ := hok a vs (List.mem_cons_self _ _) hsk
          have hfv := fieldValue_eq_spec b64 strDec (propsFor ap a) a vs hne hwf
          obtain ⟨res, heq, hout, hmem⟩ := ih
            (setKey item a (specFieldValue b64 strDec (propsFor ap a) vs)) hnd'.2
            (fun a' vs' h' => hok a' vs' (List.mem_cons_of_mem _ h'))
          refine ⟨res, ?_, ?_, ?_⟩
          · simp only [projectAttrs, hsk, Bool.false_eq_true, if_false, hfv,
              exceptBind_ok]
            exact heq
          · intro k hk
            simp only [keysOf, List.map_cons, List.mem_cons] at hk
            push_neg at hk
            rw [hout k (by simpa [keysOf] using hk.2)]
            exact lookupKey_setKey_ne item a k _ (Ne.symm hk.1)
          · intro a' vs' h'
            rcases List.mem_cons.mp h' with h' | h'
            · injection h' with ha hvs
              subst ha
              subst hvs
              constructor
              · intro _
                rw [hout a' hnd'.1]
                exact lookupKey_setKey_self item a' _
              · intro hf
                rw [hsk] at hf
                cases hf
            · have ha' : a' ≠ a := by
                intro he
                exact hnd'.1 (he ▸ List.mem_map_of_mem Prod.fst h')
              refine ⟨(hmem a' vs' h').1, ?_⟩
              intro hf
              rw [(hmem a' vs' h').2 hf]
              exact lookupKey_setKey_ne item a a' _ (Ne.symm ha')

theorem projectAttrs_err (b64 : String → String) (strDec : String → String → String)
    (ap : AProps) :
    ∀ (attrs : List (String × List String)) (item : List (String × OutVal)) (a : String),
      (a, ([] : List String)) ∈ attrs →
      truthyO (lookupKey (propsFor ap a) "skip") = false →
      lookupKey (propsFor ap a) "join" = none →
      truthyO (lookupKey (propsFor ap a) "always_list") = false →
      ∃ e, projectAttrs b64 strDec ap attrs item = .error e := by
  intro attrs
  induction attrs with
  | nil => intro item a h; exact absurd h (List.not_mem_nil _)
  | cons hd rest ih =>
      obtain ⟨b, ws⟩ := hd
      intro item a hmem hsk hj halw
      rcases List.mem_cons.mp hmem with h | h
      · injection h with hb hws
        subst hb
        subst hws
        refine ⟨.indexError a, ?_⟩
        simp [projectAttrs, hsk, fieldValue, hj, halw, exceptBind_error]
      · cases hskb : truthyO (lookupKey (propsFor ap b) "skip") with
        | true =>
            obtain ⟨e, he⟩ := ih item a h hsk hj halw
            exact ⟨e, by simp only [projectAttrs, hskb, if_pos]; exact he⟩
        | false =>
            cases hfv : fieldValue (propsFor ap b) b
                (ws.map (encode b64 strDec (propsFor ap b))) with
            | error e =>
                refine ⟨e, ?_⟩
                simp only [projectAttrs, hskb, Bool.false_eq_true, if_false, hfv,
                  exceptBind_error]
            | ok fv =>
                obtain ⟨e, he⟩ := ih (setKey item b fv) a h hsk hj halw
                refine ⟨e, ?_⟩
                simp only [projectAttrs, hskb, Bool.false_eq_true, if_false, hfv,
                  exceptBind_ok]
                exact he

/--
C2: In full-record mode (no single attribute selected), every directory
entry is projected to one record containing the term and the entry's
distinguished name, plus, for every attribute present on the entry
whose spec does not mark skip: each raw value is passed through the
value codec; if a join separator is specified the decoded values are
concatenated with that separator into one string; otherwise if more
than one decoded value exists or `always_list` is set the values stay
an ordered sequence; otherwise the field collapses to the single
decoded value (`specFieldValue` states exactly this per-field rule);
skipped attributes contribute no field.
-/
theorem processEntry_full_record_spec (b64 : String → String)
    (strDec : String → String → String) (ap : AProps) (ka : Option String)
    (term : Option String) (dn : String) (attrs : List (String × List String))
    (hnd : (keysOf attrs).Nodup)
    (hterm : "term" ∉ keysOf attrs) (hdn : "dn" ∉ keysOf attrs)
    (hok : ∀ a vs, (a, vs) ∈ attrs →
      truthyO (lookupKey (propsFor ap a) "skip") = false →
      vs ≠ [] ∧ ∀ pv, lookupKey (propsFor ap a) "join" = some pv →
        ∃ s, pv = PVal.str s) :
    processEntry b64 strDec ap none ka term dn attrs =
      .ok [.record (recOf (processEntry b64 strDec ap none ka term dn attrs))] ∧
    lookupKey (recOf (processEntry b64 strDec ap none ka term dn attrs)) "term" =
      some (termOVal term) ∧
    lookupKey (recOf (processEntry b64 strDec ap none ka term dn attrs)) "dn" =
      some (.str dn) ∧
    ∀ a vs, (a, vs) ∈ attrs →
      (truthyO (lookupKey (propsFor ap a) "skip") = false →
        lookupKey (recOf (processEntry b64 strDec ap none ka term dn attrs)) a =
          some (specFieldValue b64 strDec (propsFor ap a) vs)) ∧
      (truthyO (lookupKey (propsFor ap a) "skip") = true →
        lookupKey (recOf (processEntry b64 strDec ap none ka term dn attrs)) a =
          none) := by
  obtain ⟨res, heq, hout, hmem⟩ := projectAttrs_char b64 strDec ap attrs
    [("term", termOVal term), ("dn", OutVal.str dn)] hnd hok
  have hpe : processEntry b64 strDec ap none ka term dn attrs =
      .ok [.record res] := by
    simp only [processEntry, heq, exceptBind_ok]
  rw [hpe]
  simp only [recOf]
  refine ⟨trivial, ?_, ?_, ?_⟩
  · rw [hout "term" hterm]
    rfl
  · rw [hout "dn" hdn]
    rfl
  · intro a vs hm
    have haterm : a ≠ "term" := fun he =>
      hterm (he ▸ List.mem_map_of_mem Prod.fst hm)
    have hadn : a ≠ "dn" := fun he =>
      hdn (he ▸ List.mem_map_of_mem Prod.fst hm)
    refine ⟨(hmem a vs hm).1, ?_⟩
    intro hf
    rw [(hmem a vs hm).2 hf]
    simp [lookupKey, Ne.symm haterm, Ne.symm hadn]

/-- Witness for C2: the spec's full-record join and collapse examples. -/
theorem processEntry_full_record_spec_witness :
    lookupKey (recOf (processEntry (fun v => v) (fun _ v => v)
        [("member", some [("join", PVal.str ",")])] none none (some "g") "cn=g,dc=x"
        [("member", ["u1", "u2"])])) "member" = some (OutVal.str "u1,u2") ∧
    lookupKey (recOf (processEntry (fun v => v) (fun _ v => v) [] none none none "d"
        [("title", ["eng"])])) "title" = some (OutVal.str "eng") ∧
    lookupKey (recOf (processEntry (fun v => v) (fun _ v => v)
        [("title", some [("always_list", PVal.str "true")])] none none none "d"
        [("title", ["eng"])])) "title" = some (OutVal.list ["eng"]) := by
  refine ⟨?_, ?_, ?_⟩
  · have h := (processEntry_full_record_spec (fun v => v) (fun _ v => v)
      [("member", some [("join", PVal.str ",")])] none (some "g") "cn=g,dc=x"
      [("member", ["u1", "u2"])] (by decide) (by decide) (by decide)
      (by intro a vs hm hsk
          refine ⟨?_, ?_⟩
          · simp at hm
            simp [hm]
          · intro pv hpv
            simp at hm
            rw [hm.1] at hpv
            exact ⟨",", by simpa [propsFor, lookupKey] using hpv.symm⟩)).2.2.2
      "member" ["u1", "u2"] (by decide) |>.1 (by decide)
    simpa using h
  · have h := (processEntry_full_record_spec (fun v => v) (fun _ v => v)
      [] none none "d" [("title", ["eng"])] (by decide) (by decide) (by decide)
      (by intro a vs hm hsk
          refine ⟨?_, ?_⟩
          · simp at hm
            simp [hm]
          · intro pv hpv
            simp at hm
            rw [hm.1] at hpv
            simp [propsFor, lookupKey] at hpv)).2.2.2
      "title" ["eng"] (by decide) |>.1 (by decide)
    simpa using h
  · have h := (processEntry_full_record_spec (fun v => v) (fun _ v => v)
      [("title", some [("always_list", PVal.str "true")])] none none "d"
      [("title", ["eng"])] (by decide) (by decide) (by decide)
      (by intro a vs hm hsk
          refine ⟨?_, ?_⟩
          · simp at hm
            simp [hm]
          · intro pv hpv
            simp at hm
            rw [hm.1] at hpv
            simp [propsFor, lookupKey] at hpv)).2.2.2
      "title" ["eng"] (by decide) |>.1 (by decide)
    simpa using h

/--
C3: In single-attribute mode with no key attribute set, for each
directory entry the projected items are the entry's distinguished name
when the single attribute is "dn", and otherwise the entry's raw value
sequence for that attribute (the empty sequence, not an error, when the
attribute is absent); each item becomes a bare scalar output record
after encoding per that attribute's encoding property.
-/
theorem processEntry_single_attr_bare (b64 : String → String)
    (strDec : String → String → String) (ap : AProps) (sa : String)
    (term : Option String) (dn : String) (attrs : List (String × List String)) :
    (sa = "dn" →
      processEntry b64 strDec ap (some sa) none term dn attrs =
        .ok [.scalar (encode b64 strDec (propsFor ap sa) dn)]) ∧
    (sa ≠ "dn" →
      processEntry b64 strDec ap (some sa) none term dn attrs =
        .ok (((lookupKey attrs sa).getD []).map
          (fun v => OutRecord.scalar (encode b64 strDec (propsFor ap sa) v)))) ∧
    (sa ≠ "dn" → lookupKey attrs sa = none →
      processEntry b64 strDec ap (some sa) none term dn attrs = .ok []) := by
  refine ⟨?_, ?_, ?_⟩
  · intro h
    subst h
    simp [processEntry]
  · intro h
    simp [processEntry, h]
  · intro h habs
    simp [processEntry, h, habs]

/-- Witness for C3: the spec's single-attribute flattening example. -/
theorem processEntry_single_attr_bare_witness :
    processEntry (fun v => v) (fun _ v => v) [("mail", none)] (some "mail") none
        none "cn=a,dc=x" [("mail", ["a@x.com"])] =
      .ok [OutRecord.scalar "a@x.com"] ∧
    processEntry (fun v => v) (fun _ v => v) [("mail", none)] (some "mail") none
        none "cn=b,dc=x" [("cn", ["b"])] = .ok [] := by
  constructor
  · exact (processEntry_single_attr_bare (fun v => v) (fun _ v => v)
      [("mail", none)] "mail" none "cn=a,dc=x" [("mail", ["a@x.com"])]).2.1
      (by decide)
  · exact (processEntry_single_attr_bare (fun v => v) (fun _ v => v)
      [("mail", none)] "mail" none "cn=b,dc=x" [("cn", ["b"])]).2.2
      (by decide) rfl

/--
C4: In single-attribute mode with a key attribute set, each item
becomes its own record mapping the key attribute to the key and the
single attribute to the encoded item, where the key is the term when
the key attribute is "term", the entry's distinguished name when it is
"dn", and otherwise the first raw value of that attribute on the entry;
when the key attribute is absent from the entry and is not "term" or
"dn", the operation fails with `missingAttribute` (the design's
MissingAttributeError, a raw key lookup failure in the Python code).
-/
theorem processEntry_single_attr_keyed (b64 : String → String)
    (strDec : String → String → String) (ap : AProps) (sa ka : String)
    (term : Option String) (dn : String) (attrs : List (String × List String)) :
    (ka = "term" →
      processEntry b64 strDec ap (some sa) (some ka) term dn attrs =
        .ok ((if sa = "dn" then [dn] else (lookupKey attrs sa).getD []).map
          (fun it => OutRecord.record (setKey (setKey [] ka (termOVal term)) sa
            (.str (encode b64 strDec (propsFor ap sa) it)))))) ∧
    (ka = "dn" →
      processEntry b64 strDec ap (some sa) (some ka) term dn attrs =
        .ok ((if sa = "dn" then [dn] else (lookupKey attrs sa).getD []).map
          (fun it => OutRecord.record (setKey (setKey [] ka (OutVal.str dn)) sa
            (.str (encode b64 strDec (propsFor ap sa) it)))))) ∧
    (ka ≠ "term" → ka ≠ "dn" → ∀ v tl, lookupKey attrs ka = some (v :: tl) →
      processEntry b64 strDec ap (some sa) (some ka) term dn attrs =
        .ok ((if sa = "dn" then [dn] else (lookupKey attrs sa).getD []).map
          (fun it => OutRecord.record (setKey (setKey [] ka (OutVal.str v)) sa
            (.str (encode b64 strDec (propsFor ap sa) it)))))) ∧
    (ka ≠ "term" → ka ≠ "dn" → lookupKey attrs ka = none →
      processEntry b64 strDec ap (some sa) (some ka) term dn attrs =
        .error (.missingAttribute ka)) := by
  refine ⟨?_, ?_, ?_, ?_⟩
  · intro h
    subst h
    simp [processEntry, exceptBind_ok]
  · intro h
    subst h
    simp [processEntry, exceptBind_ok]
  · intro hterm hdn v tl hv
    simp [processEntry, hterm, hdn, hv, exceptBind_ok]
  · intro hterm hdn habs
    simp [processEntry, hterm, hdn, habs, exceptBind_error]

/-- Witness for C4: the spec's keyed example and the missing-key failure. -/
theorem processEntry_single_attr_keyed_witness :
    processEntry (fun v => v) (fun _ v => v) [("mail", none)] (some "mail")
        (some "dn") none "cn=a,dc=x" [("mail", ["a@x.com"])] =
      .ok [OutRecord.record [("dn", OutVal.str "cn=a,dc=x"),
                             ("mail", OutVal.str "a@x.com")]] ∧
    processEntry (fun v => v) (fun _ v => v) [("mail", none)] (some "mail")
        (some "uid") none "cn=a,dc=x" [("mail", ["a@x.com"])] =
      .error (.missingAttribute "uid") := by
  constructor
  · exact (processEntry_single_attr_keyed (fun v => v) (fun _ v => v)
      [("mail", none)] "mail" "dn" none "cn=a,dc=x" [("mail", ["a@x.com"])]).2.1
      rfl
  · exact (processEntry_single_attr_keyed (fun v => v) (fun _ v => v)
      [("mail", none)] "mail" "uid" none "cn=a,dc=x"
      [("mail", ["a@x.com"])]).2.2.2 (by decide) (by decide) rfl

/--
C10: In full-record mode, for every entry attribute whose spec has no
join separator, does not set always_list, and is not skipped, the
projection unconditionally indexes the first decoded value, so an
attribute present on an entry with an empty raw value sequence makes
the projection fail (out-of-bounds access) instead of producing an
empty or absent field; and the error branch is unreachable under the
precondition that every present non-skipped attribute has at least one
value (with well-formed join separators).
-/
theorem processEntry_full_record_empty_value (b64 : String → String)
    (strDec : String → String → String) (ap : AProps) :
    (∀ (ka : Option String) (term : Option String) (dn : String)
        (attrs : List (String × List String)) (a : String),
      (a, ([] : List String)) ∈ attrs →
      truthyO (lookupKey (propsFor ap a) "skip") = false →
      lookupKey (propsFor ap a) "join" = none →
      truthyO (lookupKey (propsFor ap a) "always_list") = false →
      (processEntry b64 strDec ap none ka term dn attrs).isOk = false) ∧
    (∀ (ka : Option String) (term : Option String) (dn : String)
        (attrs : List (String × List String)),
      (keysOf attrs).Nodup →
      (∀ a vs, (a, vs) ∈ attrs →
        truthyO (lookupKey (propsFor ap a) "skip") = false →
        vs ≠ [] ∧ ∀ pv, lookupKey (propsFor ap a) "join" = some pv →
          ∃ s, pv = PVal.str s) →
      (processEntry b64 strDec ap none ka term dn attrs).isOk = true) := by
  constructor
  · intro ka term dn attrs a hm hsk hj halw
    obtain ⟨e, he⟩ := projectAttrs_err b64 strDec ap attrs
      [("term", termOVal term), ("dn", OutVal.str dn)] a hm hsk hj halw
    simp only [processEntry, he, exceptBind_error]
    rfl
  · intro ka term dn attrs hnd hok
    obtain ⟨res, heq, _, _⟩ := projectAttrs_char b64 strDec ap attrs
      [("term", termOVal term), ("dn", OutVal.str dn)] hnd hok
    simp only [processEntry, heq, exceptBind_ok]
    rfl

/-- Witness for C10 at concrete inputs. -/
theorem processEntry_full_record_empty_value_witness :
    (processEntry (fun v => v) (fun _ v => v) [] none none none "d"
      [("title", [])]).isOk = false ∧
    (processEntry (fun v => v) (fun _ v => v) [] none none none "d"
      [("title", ["eng"])]).isOk = true := by
  constructor
  · exact (processEntry_full_record_empty_value (fun v => v) (fun _ v => v) []).1
      none none "d" [("title", [])] "title" (by decide) rfl rfl rfl
  · exact (processEntry_full_record_empty_value (fun v => v) (fun _ v => v) []).2
      none none "d" [("title", ["eng"])] (by decide)
      (by intro a vs hm hsk
          simp at hm
          refine ⟨by simp [hm], ?_⟩
          intro pv hpv
          rw [hm.1] at hpv
          simp [propsFor, lookupKey] at hpv)

/-!
## Claims C5 and C8: attribute-spec parsing and the key attribute
-/

theorem nodup_keys_updateDict {α : Type} (d e : List (String × α))
    (h : (keysOf d).Nodup) : (keysOf (updateDict d e)).Nodup := by
  induction e generalizing d with
  | nil => exact h
  | cons hd tl ih =>
      obtain ⟨k, v⟩ := hd
      simp only [updateDict, List.foldl_cons]
      exact ih (setKey d k v) (nodup_keys_setKey d k v h)

theorem nodup_keys_attrMap_foldl (pkv : String → List (String × PVal)) :
    ∀ (m : List (String × PropIn)) (acc : AProps), (keysOf acc).Nodup →
      (keysOf (m.foldl (fun ac nm => setKey ac nm.1 (some (propsOfIn pkv nm.2))) acc)).Nodup := by
  intro m
  induction m with
  | nil => intro acc h; exact h
  | cons hd tl ih =>
      intro acc h
      simp only [List.foldl_cons]
      exact ih _ (nodup_keys_setKey acc hd.1 _ h)

theorem nodup_keys_buildAttrProps (pkv : String → List (String × PVal)) :
    ∀ (es : List VElem) (acc : AProps), (keysOf acc).Nodup →
      (keysOf (buildAttrProps pkv es acc)).Nodup := by
  intro es
  induction es with
  | nil => intro acc h; exact h
  | cons hd rest ih =>
      intro acc h
      cases hd with
      | plain a => exact ih _ (nodup_keys_setKey acc a none h)
      | attrMap m => exact ih _ (nodup_keys_attrMap_foldl pkv m acc h)

theorem mem_keysOf_of_mem_attrlistOf (ap : AProps) (a : String)
    (h : a ∈ attrlistOf ap) : a ∈ keysOf ap := by
  simp only [attrlistOf, List.mem_map] at h
  obtain ⟨x, hx, hfst⟩ := h
  exact hfst ▸ List.mem_map_of_mem Prod.fst (List.mem_of_mem_filter hx)

theorem mem_attrlistOf_iff (ap : AProps) (a : String)
    (hnd : (keysOf ap).Nodup) :
    a ∈ attrlistOf ap ↔ ∃ po, lookupKey ap a = some po ∧
      (po = none ∨ ∃ pd, po = some pd ∧ truthyO (lookupKey pd "skip") = false) := by
  induction ap with
  | nil => simp [attrlistOf, lookupKey]
  | cons hd rest ih =>
      obtain ⟨k, po⟩ := hd
      have hnd' : k ∉ keysOf rest ∧ (keysOf rest).Nodup := by
        simpa [keysOf, List.nodup_cons] using hnd
      by_cases hk : k = a
      · subst hk
        rw [show lookupKey ((k, po) :: rest) k = some po by
              simp [lookupKey_cons]]
        cases po with
        | none =>
            constructor
            · intro _
              exact ⟨none, rfl, Or.inl rfl⟩
            · intro _
              simp [attrlistOf, List.filter_cons]
        | some pd =>
            cases hsk : truthyO (lookupKey pd "skip") with
            | false =>
                constructor
                · intro _
                  exact ⟨some pd, rfl, Or.inr ⟨pd, rfl, hsk⟩⟩
                · intro _
                  simp [attrlistOf, List.filter_cons, hsk]
            | true =>
                constructor
                · intro hmem
                  exfalso
                  have hm : k ∈ attrlistOf rest := by
                    simpa [attrlistOf, List.filter_cons, hsk] using hmem
                  exact hnd'.1 (mem_keysOf_of_mem_attrlistOf rest k hm)
                · intro ⟨po', hpo', hcase⟩
                  exfalso
                  injection hpo' with hpo'
                  subst hpo'
                  rcases hcase with h | ⟨pd', hpd', hsk'⟩
                  · cases h
                  · injection hpd' with hpd'
                    subst hpd'
                    rw [hsk] at hsk'
                    cases hsk'
      · rw [show lookupKey ((k, po) :: rest) a = lookupKey rest a by
              simp [lookupKey_cons, hk]]
        rw [← ih hnd'.2]
        have hiff : a ∈ attrlistOf ((k, po) :: rest) ↔ a ∈ attrlistOf rest := by
          simp only [attrlistOf, List.filter_cons]
          cases po with
          | none => simp [Ne.symm hk]
          | some pd =>
              cases hsk : truthyO (lookupKey pd "skip") with
              | false => simp [hsk, Ne.symm hk]
              | true => simp [hsk]
        exact hiff

/--
C5: Attribute-spec parsing treats a bare string value field as a one-
element list, and yields an attrlist containing exactly the attribute
names whose parsed properties do not mark skip (truthy), together with
a `single_attr` flag carrying the one surviving attribute name exactly
when the attrlist has length one; in particular parsing
`["cn", {"mail": "skip=true"}]` yields `cn` with no properties, `mail`
with skip "true" (via `parse_kv`), and attrlist `["cn"]`.
-/
theorem attr_spec_parsing (pkv : String → List (String × PVal)) :
    (∀ e, computeAttrSpecs pkv (.single e) = computeAttrSpecs pkv (.list [e])) ∧
    (∀ es, (keysOf (buildAttrProps pkv es [])).Nodup) ∧
    (∀ ap a, (keysOf ap).Nodup →
      (a ∈ attrlistOf ap ↔ ∃ po, lookupKey ap a = some po ∧
        (po = none ∨ ∃ pd, po = some pd ∧
          truthyO (lookupKey pd "skip") = false))) ∧
    (∀ al a, singleAttrOf al = some a ↔ al = [a]) ∧
    (pkv "skip=true" = [("skip", PVal.str "true")] →
      computeAttrSpecs pkv (.list [VElem.plain "cn",
          VElem.attrMap [("mail", PropIn.flat "skip=true")]]) =
        ([("cn", none), ("mail", some [("skip", PVal.str "true")])],
          some ["cn"], some "cn")) := by
  refine ⟨fun e => rfl, ?_, mem_attrlistOf_iff, ?_, ?_⟩
  · intro es
    exact nodup_keys_buildAttrProps pkv es [] (by simp [keysOf])
  · intro al a
    match al with
    | [] => simp [singleAttrOf]
    | [x] => simp [singleAttrOf]
    | x :: y :: t => simp [singleAttrOf]
  · intro hp
    simp only [computeAttrSpecs, computeFromList, buildAttrProps, List.foldl,
      propsOfIn, hp]
    rfl

/-- Witness for C5: the spec's round-trip example. -/
theorem attr_spec_parsing_witness :
    computeAttrSpecs (fun _ => [("skip", PVal.str "true")])
        (ValueSpec.list [VElem.plain "cn",
          VElem.attrMap [("mail", PropIn.flat "skip=true")]]) =
      ([("cn", none), ("mail", some [("skip", PVal.str "true")])],
        some ["cn"], some "cn") ∧
    "cn" ∈ attrlistOf [("cn", none), ("mail", some [("skip", PVal.str "true")])] := by
  constructor
  · exact (attr_spec_parsing (fun _ => [("skip", PVal.str "true")])).2.2.2.2 rfl
  · exact ((attr_spec_parsing (fun _ => [("skip", PVal.str "true")])).2.2.1
      [("cn", none), ("mail", some [("skip", PVal.str "true")])] "cn"
      (by decide)).mpr ⟨none, rfl, Or.inl rfl⟩

/--
C8: Whenever the key attribute is set, is not "dn", and is not already
in the derived requested attribute list, it is appended to that
requested attribute list even though it does not appear in the value
field; a key equal to "dn" or already present leaves the list
unchanged, and no list is derived (hence nothing appended) when `value`
is absent.
-/
theorem key_attr_appended (pkv : String → List (String × PVal)) :
    (∀ es k, k ≠ "dn" → k ∉ attrlistOf (buildAttrProps pkv es []) →
      applyKeyAttr (some k) (computeAttrSpecs pkv (.list es)).2.1 =
        some (attrlistOf (buildAttrProps pkv es []) ++ [k])) ∧
    (∀ k al, k ∈ al → applyKeyAttr (some k) (some al) = some al) ∧
    (∀ al, applyKeyAttr (some "dn") (some al) = some al) ∧
    (∀ k, applyKeyAttr (some k) none = none) ∧
    (∀ al, applyKeyAttr none al = al) := by
  refine ⟨?_, ?_, ?_, fun k => rfl, ?_⟩
  · intro es k hk hmem
    simp only [computeAttrSpecs, computeFromList, applyKeyAttr]
    rw [if_pos ⟨hk, hmem⟩]
  · intro k al hmem
    simp only [applyKeyAttr]
    rw [if_neg (fun hc => hc.2 hmem)]
  · intro al
    simp only [applyKeyAttr]
    rw [if_neg (fun hc => hc.1 rfl)]
  · intro al
    cases al with
    | none => rfl
    | some al => rfl

/-- Witness for C8 at concrete inputs. -/
theorem key_attr_appended_witness :
    applyKeyAttr (some "uid")
        (computeAttrSpecs (fun _ => []) (.list [VElem.plain "cn"])).2.1 =
      some (attrlistOf (buildAttrProps (fun _ => []) [VElem.plain "cn"] []) ++ ["uid"]) ∧
    applyKeyAttr (some "cn") (some ["cn"]) = some ["cn"] := by
  constructor
  · exact (key_attr_appended (fun _ => [])).1 [VElem.plain "cn"] "uid"
      (by decide) (by decide)
  · exact (key_attr_appended (fun _ => [])).2.1 "cn" ["cn"] (by decide)

/-!
## Claims C6 and C9: scope resolution and the term loop
-/

theorem strAppend_left_cancel (a b c : String) (h : a ++ b = a ++ c) : b = c := by
  have hd : a.data ++ b.data = a.data ++ c.data := by
    have h2 := congrArg String.data h
    simpa [String.data_append] using h2
  have h3 := List.append_cancel_left hd
  cases b
  cases c
  exact congrArg String.mk h3

/--
C6: For every configuration whose scope value is not one of base, one,
or subtree (compared case-insensitively, i.e. after uppercasing),
binding the search description fails with the spec's
ConfigurationError (the scope constant lookup on the external ldap
module finds no `SCOPE_<NAME>` attribute).
-/
theorem resolveScope_unknown_scope (s : String)
    (hb : strUpper s ≠ "BASE") (ho : strUpper s ≠ "ONE")
    (hsu : strUpper s ≠ "SUBTREE") :
    resolveScope s = .error (.configurationError ("unrecognized scope " ++ s)) := by
  have h1 : "SCOPE_" ++ strUpper s ≠ "SCOPE_BASE" := fun he =>
    hb (strAppend_left_cancel "SCOPE_" _ "BASE" (he.trans rfl))
  have h2 : "SCOPE_" ++ strUpper s ≠ "SCOPE_ONE" := fun he =>
    ho (strAppend_left_cancel "SCOPE_" _ "ONE" (he.trans rfl))
  have h3 : "SCOPE_" ++ strUpper s ≠ "SCOPE_SUBTREE" := fun he =>
    hsu (strAppend_left_cancel "SCOPE_" _ "SUBTREE" (he.trans rfl))
  simp only [resolveScope, ldapScopeGetattr, if_neg h1, if_neg h2, if_neg h3]

/-- Witness for C6 at a concrete unknown scope. -/
theorem resolveScope_unknown_scope_witness :
    resolveScope "wEird" = .error (.configurationError "unrecognized scope wEird") :=
  resolveScope_unknown_scope "wEird" (by decide) (by decide) (by decide)

/--
C9: An invocation whose term list is empty (after any leading
configuration-override mappings are consumed by
`stripLeadingMappings`) behaves exactly like an invocation with a
single nil term: the run result (issued searches and output records)
is identical, and exactly one search is executed, using the search
description bound with the nil term (connection-level base, scope and
filter, no term substitution).
-/
theorem runSearch_empty_terms (bindTerm : Option String → SearchDesc)
    (searchFn : String → Nat → Option String →
      List (String × List (String × List String)))
    (b64 : String → String) (strDec : String → String → String) (ap : AProps)
    (sa ka : Option String) :
    (∀ (terms : List TermItem) (c : Config),
      stripLeadingMappings terms [] = (c, []) →
      runSearch bindTerm searchFn b64 strDec ap sa ka
          (stripLeadingMappings terms []).2 =
        runSearch bindTerm searchFn b64 strDec ap sa ka [TermItem.plain none]) ∧
    runSearch bindTerm searchFn b64 strDec ap sa ka [] =
      runSearch bindTerm searchFn b64 strDec ap sa ka [TermItem.plain none] ∧
    (∀ calls out,
      runSearch bindTerm searchFn b64 strDec ap sa ka [] = .ok (calls, out) →
      ∃ sc, resolveScope (bindTerm none).scope = .ok sc ∧
        calls = [((bindTerm none).base, sc, (bindTerm none).filter)]) := by
  refine ⟨?_, rfl, ?_⟩
  · intro terms c h
    rw [h]
    rfl
  · intro calls out h
    rw [show runSearch bindTerm searchFn b64 strDec ap sa ka [] =
        runTermsLoop bindTerm searchFn b64 strDec ap sa ka [TermItem.plain none]
        from rfl] at h
    simp only [runTermsLoop] at h
    cases hsc : resolveScope (bindTerm none).scope with
    | error e =>
        rw [hsc] at h
        simp [exceptBind_error] at h
    | ok sc =>
        rw [hsc] at h
        rw [exceptBind_ok] at h
        cases hf : (searchFn (bindTerm none).base sc
            (bindTerm none).filter).foldlM (fun acc e => do
              let rs ← processEntry b64 strDec ap sa ka none e.1 e.2
              pure (acc ++ rs)) ([] : List OutRecord) with
        | error e =>
            rw [hf] at h
            simp [exceptBind_error] at h
        | ok recs =>
            rw [hf] at h
            rw [exceptBind_ok] at h
            simp only [runTermsLoop, exceptBind_ok, Except.ok.injEq,
              Prod.mk.injEq] at h
            exact ⟨sc, rfl, h.1.symm⟩

/-- Witness for C9 at concrete inputs. -/
theorem runSearch_empty_terms_witness :
    runSearch (fun _ => ⟨"dc=x", "subtree", none⟩) (fun _ _ _ => [])
        (fun v => v) (fun _ v => v) [] none none
        (stripLeadingMappings [TermItem.mapping []] []).2 =
      runSearch (fun _ => ⟨"dc=x", "subtree", none⟩) (fun _ _ _ => [])
        (fun v => v) (fun _ v => v) [] none none [TermItem.plain none] ∧
    resolveScope "subtree" = .ok 2 := by
  constructor
  · exact (runSearch_empty_terms (fun _ => ⟨"dc=x", "subtree", none⟩)
      (fun _ _ _ => []) (fun v => v) (fun _ v => v) [] none none).1
      [TermItem.mapping []] [] rfl
  · obtain ⟨sc, hsc, hcalls⟩ := (runSearch_empty_terms
      (fun _ => ⟨"dc=x", "subtree", none⟩) (fun _ _ _ => [])
      (fun v => v) (fun _ v => v) [] none none).2.2
      [("dc=x", 2, none)] [] rfl
    have h2 : sc = 2 := by
      simp at hcalls
      exact hcalls.symm
    rw [h2] at hsc
    exact hsc

end LdapLookup
